import Mathlib

/-
Shallow embedding of the Go_LogDB commit-log core
(src/internal/log: store, index, segment; src/internal/server).

Bytes are modelled as `Nat` values below 256 in lists; Go machine
integers (uint32, uint64, int64) are modelled as `Nat` / `Int` with
explicit reductions modulo 2^32 / 2^64 where the Go code can wrap.
Fallible operations return `Except Err`.
-/

namespace GoLogDB

/-- Error kinds surfaced by the core: `eof` models io.EOF (used both as the
index end-of-file sentinel and for short store reads); `badProto` models a
record deserialization failure. -/
inductive Err where
  | eof
  | badProto
deriving DecidableEq, Repr

deriving instance DecidableEq for Except

/-- Big-endian 8-byte encoding of the low 64 bits of a natural number
(binary.BigEndian.PutUint64). -/
def encU64 (n : Nat) : List Nat :=
  [n / 2 ^ 56 % 256, n / 2 ^ 48 % 256, n / 2 ^ 40 % 256, n / 2 ^ 32 % 256,
   n / 2 ^ 24 % 256, n / 2 ^ 16 % 256, n / 2 ^ 8 % 256, n % 256]

/-- Big-endian 4-byte encoding of the low 32 bits of a natural number
(binary.BigEndian.PutUint32). -/
def encU32 (n : Nat) : List Nat :=
  [n / 2 ^ 24 % 256, n / 2 ^ 16 % 256, n / 2 ^ 8 % 256, n % 256]

/-- Big-endian decoding of a byte list (binary.BigEndian.Uint64 on 8 bytes). -/
def decU64 (l : List Nat) : Nat :=
  l.foldl (fun a b => a * 256 + b) 0

/-- Big-endian decoding of a byte list (binary.BigEndian.Uint32 on 4 bytes). -/
def decU32 (l : List Nat) : Nat :=
  l.foldl (fun a b => a * 256 + b) 0

/-- Sublist of `l` starting at index `start`, of length `len` (a Go slice
expression l[start : start+len]). -/
def slice (l : List Nat) (start len : Nat) : List Nat :=
  (l.drop start).take len

/-- Overwrite the bytes of `l` at positions [start, start + v.length) with `v`
(the effect of a PutUint32/PutUint64 into a sub-slice of a byte slice). -/
def writeBytes (l : List Nat) (start : Nat) (v : List Nat) : List Nat :=
  l.take start ++ v ++ l.drop (start + v.length)

/-- Go uint64 subtraction a - b with wraparound. -/
def usub64 (a b : Nat) : Nat :=
  (a % 2 ^ 64 + 2 ^ 64 - b % 2 ^ 64) % 2 ^ 64

/-- Reinterpretation of a uint64 value as an int64 (two's complement), as in
the Go conversion int64(x). -/
def toInt64 (n : Nat) : Int :=
  if n % 2 ^ 64 < 2 ^ 63 then (n % 2 ^ 64 : Nat) else (n % 2 ^ 64 : Nat) - 2 ^ 64

/- ===== Store (src/unnamed/part_000, package log) ===== -/

/-- Store state: `data` is the byte content of the store file (write buffer
taken as flushed), `size` the uint64 logical size field. -/
structure Store where
  data : List Nat
  size : Nat
deriving DecidableEq, Repr

/-- newStore: records the current file size. -/
def newStoreM (fileContent : List Nat) : Store :=
  { data := fileContent, size := fileContent.length % 2 ^ 64 }

/-- store.Append: writes the 8-byte big-endian length prefix then the payload;
returns (bytes written, position of the frame) and the updated store. -/
def storeAppend (s : Store) (p : List Nat) : Nat × Nat × Store :=
  let pos := s.size
  let w := p.length + 8
  (w % 2 ^ 64, pos,
    { data := s.data ++ encU64 p.length ++ p, size := (s.size + w) % 2 ^ 64 })

/-- store.Read: reads the 8-byte length L at `pos` then L payload bytes at
pos+8. A position that does not fit in a nonnegative int64, or a read past
the end of the file, fails (File.ReadAt returns an error on a short read). -/
def storeRead (s : Store) (pos : Nat) : Except Err (List Nat) :=
  if 2 ^ 63 ≤ pos then .error .eof
  else if s.data.length < pos + 8 then .error .eof
  else
    let L := decU64 (slice s.data pos 8)
    if s.data.length < pos + 8 + L then .error .eof
    else .ok (slice s.data (pos + 8) L)

/- ===== Basic byte-level lemmas ===== -/

theorem encU64_length (n : Nat) : (encU64 n).length = 8 := by
  simp [encU64]

theorem encU32_length (n : Nat) : (encU32 n).length = 4 := by
  simp [encU32]

theorem decU64_encU64 (n : Nat) : decU64 (encU64 n) = n % 2 ^ 64 := by
  simp only [decU64, encU64, List.foldl]
  omega

theorem decU32_encU32 (n : Nat) : decU32 (encU32 n) = n % 2 ^ 32 := by
  simp only [decU32, encU32, List.foldl]
  omega

theorem slice_append_right (l₁ l₂ : List Nat) (a n : Nat) (h : l₁.length ≤ a) :
    slice (l₁ ++ l₂) a n = slice l₂ (a - l₁.length) n := by
  unfold slice
  conv_lhs => rw [show a = l₁.length + (a - l₁.length) from by omega, List.drop_append]

theorem slice_append_left (l₁ l₂ : List Nat) (a n : Nat) (h : a + n ≤ l₁.length) :
    slice (l₁ ++ l₂) a n = slice l₁ a n := by
  unfold slice
  rw [List.drop_append_of_le_length (by omega)]
  rw [List.take_append_of_le_length (by simp; omega)]

theorem slice_all (l : List Nat) : slice l 0 l.length = l := by
  simp [slice]

/-- Reading back exactly the just-appended frame header. -/
theorem slice_frame_header (d h p : List Nat) (hh : h.length = 8) :
    slice (d ++ h ++ p) d.length 8 = h := by
  rw [List.append_assoc, slice_append_right d (h ++ p) d.length 8 (le_refl _)]
  simp only [Nat.sub_self]
  rw [slice_append_left h p 0 8 (by omega), ← hh]
  exact slice_all h

theorem slice_frame_payload (d h p : List Nat) (hh : h.length = 8) :
    slice (d ++ h ++ p) (d.length + 8) p.length = p := by
  rw [List.append_assoc, slice_append_right d (h ++ p) _ _ (by omega)]
  rw [Nat.add_sub_cancel_left, slice_append_right h p 8 _ (by omega)]
  rw [hh, Nat.sub_self]
  exact slice_all p

/- ===== C1 ===== -/

/-- C1: Store round-trip with exact return values: appending byte sequence b
to a store whose size field matches its content returns
(n, pos) = (8 + len b, size before the append), and reading back at pos
returns exactly b. -/
theorem store_append_read (s : Store) (b : List Nat)
    (hw : s.size = s.data.length) (hb : s.data.length + 8 + b.length ≤ 2 ^ 63) :
    (storeAppend s b).1 = 8 + b.length ∧
    (storeAppend s b).2.1 = s.size ∧
    storeRead (storeAppend s b).2.2 (storeAppend s b).2.1 = .ok b := by
  refine ⟨?_, rfl, ?_⟩
  · simp only [storeAppend]
    omega
  · have hlen : (s.data ++ encU64 b.length ++ b).length
        = s.data.length + 8 + b.length := by
      simp only [List.length_append, encU64_length]
    simp only [storeAppend, storeRead, hlen, hw]
    rw [if_neg (by omega), if_neg (by omega)]
    rw [slice_frame_header s.data (encU64 b.length) b (encU64_length _)]
    rw [decU64_encU64]
    have hbl : b.length % 2 ^ 64 = b.length := Nat.mod_eq_of_lt (by omega)
    rw [hbl, if_neg (by omega)]
    rw [slice_frame_payload s.data (encU64 b.length) b (encU64_length _)]

/-- C1 witness: concrete instance on a store holding one prior frame. -/
theorem store_append_read_witness :
    (storeAppend ⟨[0, 0, 0, 0, 0, 0, 0, 2, 9, 9], 10⟩ [1, 2, 3]).1 = 8 + 3 ∧
    (storeAppend ⟨[0, 0, 0, 0, 0, 0, 0, 2, 9, 9], 10⟩ [1, 2, 3]).2.1 = 10 ∧
    storeRead (storeAppend ⟨[0, 0, 0, 0, 0, 0, 0, 2, 9, 9], 10⟩ [1, 2, 3]).2.2
      (storeAppend ⟨[0, 0, 0, 0, 0, 0, 0, 2, 9, 9], 10⟩ [1, 2, 3]).2.1 = .ok [1, 2, 3] :=
  store_append_read ⟨[0, 0, 0, 0, 0, 0, 0, 2, 9, 9], 10⟩ [1, 2, 3]
    (by decide) (by decide)

/- ===== Index (src/internal/log/index.go) ===== -/

/-- offWidth: byte width of the uint32 relative-offset field of an entry. -/
def offWidth : Nat := 4

/-- posWidth: byte width of the uint64 position field of an entry. -/
def posWidth : Nat := 8

/-- entWidth: byte width of one index entry. -/
def entWidth : Nat := offWidth + posWidth

/-- Config (src/internal/log/config.go): segment limits, all uint64. -/
structure Config where
  maxStoreBytes : Nat
  maxIndexBytes : Nat
  initialOffset : Nat
deriving DecidableEq, Repr

/-- Index state: `mmap` is the memory-mapped byte content, `size` the uint64
logical size field, `config` the stored configuration. -/
structure Index where
  mmap : List Nat
  size : Nat
  config : Config
deriving DecidableEq, Repr

/-- newIndex: remembers the current file size, truncates the file to
MaxIndexBytes (extension pads with zero bytes, a larger file is cut), then
memory-maps the whole file. -/
def newIndexM (fileContent : List Nat) (c : Config) : Index :=
  { mmap := (fileContent ++
      List.replicate (c.maxIndexBytes - fileContent.length) 0).take c.maxIndexBytes,
    size := fileContent.length % 2 ^ 64,
    config := c }

/-- index.IsMaxed: true when the mapped length cannot hold one more entry;
the comparison uses uint64 arithmetic on size + entWidth. -/
def indexIsMaxed (i : Index) : Bool :=
  i.mmap.length < (i.size + entWidth) % 2 ^ 64

/-- index.Read: slot −1 means the last entry, computed as size/entWidth − 1
in uint64 arithmetic; the slot is truncated to uint32 before use; returns
io.EOF on an empty index or when the selected entry would extend past the
logical size. -/
def indexRead (i : Index) (off : Int) : Except Err (Nat × Nat) :=
  if i.size = 0 then .error .eof
  else
    let out : Nat :=
      if off = -1 then (i.size / entWidth + (2 ^ 64 - 1)) % 2 ^ 64 % 2 ^ 32
      else (off % (2 ^ 32 : Int)).toNat
    let startingPos := out * entWidth
    if i.size < startingPos + entWidth then .error .eof
    else
      .ok (decU32 (slice i.mmap startingPos offWidth),
           decU64 (slice i.mmap (startingPos + offWidth) posWidth))

/-- index.Write: fails with io.EOF when maxed; otherwise encodes the uint32
offset then the uint64 position at the current logical size and advances the
size by one entry width (uint64 arithmetic). -/
def indexWrite (i : Index) (off pos : Nat) : Except Err Unit × Index :=
  if indexIsMaxed i then (.error .eof, i)
  else
    (.ok (),
      { i with
        mmap := writeBytes (writeBytes i.mmap i.size (encU32 off))
          (i.size + offWidth) (encU64 pos),
        size := (i.size + entWidth) % 2 ^ 64 })

/- ===== writeBytes lemmas ===== -/

theorem writeBytes_length (l v : List Nat) (s : Nat) (h : s + v.length ≤ l.length) :
    (writeBytes l s v).length = l.length := by
  simp only [writeBytes, List.length_append, List.length_take, List.length_drop]
  omega

theorem slice_take (l : List Nat) (s a n : Nat) (h : a + n ≤ s) :
    slice (l.take s) a n = slice l a n := by
  unfold slice
  rw [List.drop_take, List.take_take]
  congr 1
  omega

theorem slice_writeBytes_self (l v : List Nat) (s : Nat) (h : s + v.length ≤ l.length) :
    slice (writeBytes l s v) s v.length = v := by
  have ht : (l.take s).length = s := List.length_take_of_le (by omega)
  unfold writeBytes
  rw [List.append_assoc, slice_append_right _ _ s v.length (by rw [ht])]
  rw [ht, Nat.sub_self, slice_append_left v _ 0 v.length (by omega)]
  exact slice_all v

theorem slice_writeBytes_before (l v : List Nat) (s a n : Nat)
    (h : a + n ≤ s) (hs : s ≤ l.length) :
    slice (writeBytes l s v) a n = slice l a n := by
  have ht : (l.take s).length = s := List.length_take_of_le hs
  unfold writeBytes
  rw [List.append_assoc, slice_append_left (l.take s) _ a n (by rw [ht]; omega)]
  exact slice_take l s a n h

/- ===== C4 ===== -/

/-- C4: Index write capacity boundary: with the mapped length equal to
MaxIndexBytes = M, a write at logical size exactly M − 12 succeeds; a write
attempted when size + 12 exceeds M fails with the end-of-file sentinel and
changes nothing; a successful write encodes the u32 offset and u64 position
big-endian at the current logical size and advances the size by 12. -/
theorem index_write_capacity (i : Index) (M off pos : Nat)
    (hlen : i.mmap.length = M) (hM : M < 2 ^ 64) :
    (12 ≤ M → i.size = M - 12 → (indexWrite i off pos).1 = .ok ()) ∧
    (i.size + 12 < 2 ^ 64 → M < i.size + 12 →
      indexWrite i off pos = (.error .eof, i)) ∧
    (i.size + 12 < 2 ^ 64 → (indexWrite i off pos).1 = .ok () →
      slice (indexWrite i off pos).2.mmap i.size 4 = encU32 off ∧
      slice (indexWrite i off pos).2.mmap (i.size + 4) 8 = encU64 pos ∧
      (indexWrite i off pos).2.size = i.size + 12) := by
  refine ⟨?_, ?_, ?_⟩
  · intro h12 hsz
    have hnm : indexIsMaxed i = false := by
      simp only [indexIsMaxed, entWidth, offWidth, posWidth, hlen, hsz,
        decide_eq_false_iff_not, not_lt]
      omega
    simp [indexWrite, hnm]
  · intro hnw hover
    have hm : indexIsMaxed i = true := by
      simp only [indexIsMaxed, entWidth, offWidth, posWidth, hlen,
        decide_eq_true_eq]
      omega
    simp [indexWrite, hm]
  · intro hnw hok
    have hnm : indexIsMaxed i = false := by
      by_contra hc
      have : indexIsMaxed i = true := by
        revert hc
        cases indexIsMaxed i <;> simp
      simp [indexWrite, this] at hok
    have hroom : i.size + 12 ≤ M := by
      have := hnm
      simp only [indexIsMaxed, entWidth, offWidth, posWidth, hlen,
        decide_eq_false_iff_not, not_lt] at this
      omega
    have h4 : i.size + (encU32 off).length ≤ i.mmap.length := by
      rw [encU32_length, hlen]; omega
    have hinner : (writeBytes i.mmap i.size (encU32 off)).length = i.mmap.length :=
      writeBytes_length _ _ _ h4
    have h8 : i.size + 4 + (encU64 pos).length ≤
        (writeBytes i.mmap i.size (encU32 off)).length := by
      rw [encU64_length, hinner, hlen]; omega
    refine ⟨?_, ?_, ?_⟩
    · simp only [indexWrite, hnm, Bool.false_eq_true, if_false, offWidth]
      have hb := slice_writeBytes_before
        (writeBytes i.mmap i.size (encU32 off)) (encU64 pos)
        (i.size + 4) i.size 4 (by omega) (by rw [hinner, hlen]; omega)
      rw [hb]
      have hself := slice_writeBytes_self i.mmap (encU32 off) i.size
        (by rw [encU32_length, hlen]; omega)
      rw [encU32_length] at hself
      exact hself
    · simp only [indexWrite, hnm, Bool.false_eq_true, if_false, offWidth]
      have hself := slice_writeBytes_self
        (writeBytes i.mmap i.size (encU32 off)) (encU64 pos) (i.size + 4)
        (by rw [encU64_length, hinner, hlen]; omega)
      rw [encU64_length] at hself
      exact hself
    · simp only [indexWrite, hnm, Bool.false_eq_true, if_false, entWidth,
        offWidth, posWidth]
      omega

/-- C4 witness: on an index of mapped length 24 at size 12 = 24 − 12 the write
succeeds, encodes the entry and advances the size; at size 24 it fails. -/
theorem index_write_capacity_witness :
    (indexWrite ⟨List.replicate 24 0, 12, ⟨1024, 24, 0⟩⟩ 3 7).1 = .ok () ∧
    indexWrite ⟨List.replicate 24 0, 24, ⟨1024, 24, 0⟩⟩ 3 7 =
      (.error .eof, ⟨List.replicate 24 0, 24, ⟨1024, 24, 0⟩⟩) ∧
    (indexWrite ⟨List.replicate 24 0, 12, ⟨1024, 24, 0⟩⟩ 3 7).2.size = 24 := by
  refine ⟨(index_write_capacity _ 24 3 7 (by decide) (by decide)).1
      (by decide) (by decide), ?_, ?_⟩
  · exact (index_write_capacity _ 24 3 7 (by decide) (by decide)).2.1
      (by decide) (by decide)
  · have h := ((index_write_capacity ⟨List.replicate 24 0, 12, ⟨1024, 24, 0⟩⟩
      24 3 7 (by decide) (by decide)).2.2 (by decide)
      ((index_write_capacity ⟨List.replicate 24 0, 12, ⟨1024, 24, 0⟩⟩
        24 3 7 (by decide) (by decide)).1 (by decide) (by decide))).2.2
    simpa using h

/- ===== C9 ===== -/

/-- C9: index.Read truncates the requested slot to 32 bits: on an index with
at least one entry, reading any nonnegative slot s behaves exactly as reading
s mod 2^32, and reading slot 2^32 returns the entry stored at slot 0 rather
than end-of-file. -/
theorem index_read_trunc32 (i : Index) (h12 : 12 ≤ i.size) :
    (∀ s : Int, 0 ≤ s → indexRead i s = indexRead i (s % 2 ^ 32)) ∧
    indexRead i (2 ^ 32) = .ok (decU32 (slice i.mmap 0 4), decU64 (slice i.mmap 4 8)) ∧
    indexRead i 0 = .ok (decU32 (slice i.mmap 0 4), decU64 (slice i.mmap 4 8)) := by
  have h0 : ¬ i.size = 0 := by omega
  refine ⟨?_, ?_, ?_⟩
  · intro s hs
    simp only [indexRead]
    rw [if_neg (show ¬ s = -1 by omega),
      if_neg (show ¬ s % (2 ^ 32 : Int) = -1 by omega)]
    have hmm : s % (2 ^ 32 : Int) % (2 ^ 32 : Int) = s % (2 ^ 32 : Int) := by omega
    rw [hmm]
  · simp only [indexRead]
    rw [if_neg h0, if_neg (show ¬ ((2 ^ 32 : Int)) = -1 by decide)]
    have hout : (((2 ^ 32 : Int)) % (2 ^ 32 : Int)).toNat = 0 := by decide
    rw [hout]
    rw [if_neg (show ¬ i.size < 0 * entWidth + entWidth by
      simp only [entWidth, offWidth, posWidth]; omega)]
    simp [entWidth, offWidth, posWidth]
  · simp only [indexRead]
    rw [if_neg h0, if_neg (show ¬ ((0 : Int)) = -1 by decide)]
    have hout : (((0 : Int)) % (2 ^ 32 : Int)).toNat = 0 := by decide
    rw [hout]
    rw [if_neg (show ¬ i.size < 0 * entWidth + entWidth by
      simp only [entWidth, offWidth, posWidth]; omega)]
    simp [entWidth, offWidth, posWidth]

/-- C9 witness: an index with one entry (5, 100); slot 2^32 reads it back. -/
theorem index_read_trunc32_witness :
    indexRead ⟨encU32 5 ++ encU64 100 ++ List.replicate 12 0, 12, ⟨1024, 24, 0⟩⟩
        (2 ^ 32) = .ok (5, 100) ∧
    indexRead ⟨encU32 5 ++ encU64 100 ++ List.replicate 12 0, 12, ⟨1024, 24, 0⟩⟩
        (5 + 2 ^ 32) =
      indexRead ⟨encU32 5 ++ encU64 100 ++ List.replicate 12 0, 12, ⟨1024, 24, 0⟩⟩
        ((5 + 2 ^ 32) % 2 ^ 32) := by
  constructor
  · rw [(index_read_trunc32
      ⟨encU32 5 ++ encU64 100 ++ List.replicate 12 0, 12, ⟨1024, 24, 0⟩⟩
      (by decide)).2.1]
    decide
  · exact (index_read_trunc32
      ⟨encU32 5 ++ encU64 100 ++ List.replicate 12 0, 12, ⟨1024, 24, 0⟩⟩
      (by decide)).1 (5 + 2 ^ 32) (by decide)

/- ===== C10 ===== -/

/-- Operations performed against one index: Write with its two arguments, or
Read with its slot (index.Read does not change the index state). -/
inductive IdxOp where
  | write (off pos : Nat)
  | read (slot : Int)
deriving DecidableEq, Repr

/-- Effect of one operation on the index state. -/
def idxApplyOp (i : Index) : IdxOp → Index
  | .write off pos => (indexWrite i off pos).2
  | .read _ => i

/-- Effect of a sequence of operations on the index state. -/
def idxApplyOps (i : Index) (ops : List IdxOp) : Index :=
  ops.foldl idxApplyOp i

theorem idxApplyOps_inv (ops : List IdxOp) :
    ∀ i : Index, i.size % 12 = 0 → i.size ≤ i.mmap.length →
      i.mmap.length + 12 < 2 ^ 64 →
      (idxApplyOps i ops).size % 12 = 0 ∧
      (idxApplyOps i ops).size ≤ (idxApplyOps i ops).mmap.length ∧
      (idxApplyOps i ops).mmap.length = i.mmap.length := by
  induction ops with
  | nil => intro i h1 h2 h3; exact ⟨h1, h2, rfl⟩
  | cons op ops ih =>
    intro i h1 h2 h3
    have hstep : idxApplyOps i (op :: ops) = idxApplyOps (idxApplyOp i op) ops := rfl
    rw [hstep]
    rcases op with ⟨off, pos⟩ | slot
    · by_cases hm : indexIsMaxed i = true
      · have : idxApplyOp i (.write off pos) = i := by
          simp [idxApplyOp, indexWrite, hm]
        rw [this]
        exact ih i h1 h2 h3
      · have hm' : indexIsMaxed i = false := by
          revert hm; cases indexIsMaxed i <;> simp
        have hroom : i.size + 12 ≤ i.mmap.length := by
          have := hm'
          simp only [indexIsMaxed, entWidth, offWidth, posWidth,
            decide_eq_false_iff_not, not_lt] at this
          omega
        have hlen : ((idxApplyOp i (.write off pos)).mmap).length = i.mmap.length := by
          simp only [idxApplyOp, indexWrite, hm', Bool.false_eq_true, if_false]
          rw [writeBytes_length, writeBytes_length]
          · rw [encU32_length]; omega
          · rw [encU64_length, writeBytes_length]
            · rw [offWidth]; omega
            · rw [encU32_length]; omega
        have hsz : (idxApplyOp i (.write off pos)).size = i.size + 12 := by
          simp only [idxApplyOp, indexWrite, hm', Bool.false_eq_true, if_false,
            entWidth, offWidth, posWidth]
          omega
        have := ih (idxApplyOp i (.write off pos))
          (by rw [hsz]; omega) (by rw [hsz, hlen]; omega) (by rw [hlen]; omega)
        exact ⟨this.1, this.2.1, by rw [this.2.2, hlen]⟩
    · exact ih i h1 h2 h3

/-- C10 amended: for an index created by newIndex on an initially empty file,
after every sequence of write and read operations the logical size is a
multiple of 12 and never exceeds the mapped length (so every recorded entry
lies entirely within the memory map), and a write that returns the
end-of-file sentinel leaves the index state unchanged. -/
theorem index_size_wellformed (c : Config) (hM : c.maxIndexBytes + 12 < 2 ^ 64)
    (ops : List IdxOp) :
    ((idxApplyOps (newIndexM [] c) ops).size % 12 = 0 ∧
     (idxApplyOps (newIndexM [] c) ops).size ≤
       (idxApplyOps (newIndexM [] c) ops).mmap.length) ∧
    (∀ (i : Index) (off pos : Nat) (e : Err),
      (indexWrite i off pos).1 = .error e → (indexWrite i off pos).2 = i) := by
  constructor
  · have hlen : (newIndexM [] c).mmap.length = c.maxIndexBytes := by
      simp [newIndexM]
    have hsz : (newIndexM [] c).size = 0 := by
      simp [newIndexM]
    have := idxApplyOps_inv ops (newIndexM [] c)
      (by rw [hsz]) (by rw [hsz]; omega) (by rw [hlen]; omega)
    exact ⟨this.1, this.2.1⟩
  · intro i off pos e h
    by_cases hm : indexIsMaxed i = true
    · simp [indexWrite, hm]
    · have hm' : indexIsMaxed i = false := by
        revert hm; cases indexIsMaxed i <;> simp
      simp [indexWrite, hm'] at h

/-- C10 witness: with MaxIndexBytes 24, after two writes and a read the size
is 24, a multiple of 12 not exceeding the mapped length; and the failing
third write leaves the index unchanged. -/
theorem index_size_wellformed_witness :
    ((idxApplyOps (newIndexM [] ⟨1024, 24, 0⟩) [.write 1 2, .read 0, .write 3 4]).size % 12 = 0 ∧
     (idxApplyOps (newIndexM [] ⟨1024, 24, 0⟩) [.write 1 2, .read 0, .write 3 4]).size ≤
       (idxApplyOps (newIndexM [] ⟨1024, 24, 0⟩) [.write 1 2, .read 0, .write 3 4]).mmap.length) ∧
    (indexWrite ⟨List.replicate 24 0, 24, ⟨1024, 24, 0⟩⟩ 9 9).2 =
      ⟨List.replicate 24 0, 24, ⟨1024, 24, 0⟩⟩ := by
  constructor
  · exact (index_size_wellformed ⟨1024, 24, 0⟩ (by decide)
      [.write 1 2, .read 0, .write 3 4]).1
  · exact (index_size_wellformed ⟨1024, 24, 0⟩ (by decide) []).2
      ⟨List.replicate 24 0, 24, ⟨1024, 24, 0⟩⟩ 9 9 .eof (by decide)

/-- C10 counterexample: the claim also asserts that size + 12 never exceeds
the mapped length; with MaxIndexBytes = 12, after the single successful write
the size is 12 and size + 12 = 24 exceeds the mapped length 12. -/
theorem index_size_wellformed_cex :
    (idxApplyOps (newIndexM [] ⟨1024, 12, 0⟩) [.write 0 0]).mmap.length <
      (idxApplyOps (newIndexM [] ⟨1024, 12, 0⟩) [.write 0 0]).size + 12 := by
  decide

/- ===== C5 ===== -/

/-- Characterization of index.Read on a nonempty index once the selected
slot value is known. -/
theorem indexRead_eq (i : Index) (off : Int) (t : Nat)
    (h0 : ¬ i.size = 0)
    (ht : (if off = -1 then (i.size / entWidth + (2 ^ 64 - 1)) % 2 ^ 64 % 2 ^ 32
           else (off % (2 ^ 32 : Int)).toNat) = t) :
    indexRead i off =
      if i.size < t * entWidth + entWidth then .error .eof
      else .ok (decU32 (slice i.mmap (t * entWidth) offWidth),
                decU64 (slice i.mmap (t * entWidth + offWidth) posWidth)) := by
  simp only [indexRead, if_neg h0, ht]

/-- Sequence of index writes, threading the state. -/
def idxApplyWrites (i : Index) (ws : List (Nat × Nat)) : Index :=
  ws.foldl (fun j w => (indexWrite j w.1 w.2).2) i

theorem idxApplyWrites_spec (ws : List (Nat × Nat)) :
    ∀ i : Index, i.mmap.length + 12 < 2 ^ 64 →
      i.size + 12 * ws.length ≤ i.mmap.length →
      (idxApplyWrites i ws).size = i.size + 12 * ws.length ∧
      (idxApplyWrites i ws).mmap.length = i.mmap.length ∧
      (∀ a n, a + n ≤ i.size →
        slice (idxApplyWrites i ws).mmap a n = slice i.mmap a n) ∧
      (∀ k, ∀ hk : k < ws.length,
        slice (idxApplyWrites i ws).mmap (i.size + 12 * k) 4
          = encU32 (ws.get ⟨k, hk⟩).1 ∧
        slice (idxApplyWrites i ws).mmap (i.size + 12 * k + 4) 8
          = encU64 (ws.get ⟨k, hk⟩).2) := by
  induction ws with
  | nil =>
    intro i h1 h2
    refine ⟨by simp [idxApplyWrites], by simp [idxApplyWrites], ?_, ?_⟩
    · intro a n _
      rfl
    · intro k hk
      exact absurd hk (by simp)
  | cons w ws ih =>
    intro i h1 h2
    have hlc : (w :: ws).length = ws.length + 1 := rfl
    have hroom : i.size + 12 ≤ i.mmap.length := by
      rw [hlc] at h2; omega
    have hm : indexIsMaxed i = false := by
      simp only [indexIsMaxed, entWidth, offWidth, posWidth,
        decide_eq_false_iff_not, not_lt]
      omega
    have hi1 : (indexWrite i w.1 w.2).2 =
        { i with
          mmap := writeBytes (writeBytes i.mmap i.size (encU32 w.1))
            (i.size + offWidth) (encU64 w.2),
          size := (i.size + entWidth) % 2 ^ 64 } := by
      simp [indexWrite, hm]
    have hinlen : (writeBytes i.mmap i.size (encU32 w.1)).length = i.mmap.length :=
      writeBytes_length _ _ _ (by rw [encU32_length]; omega)
    have hms : (indexWrite i w.1 w.2).2.size = i.size + 12 := by
      rw [hi1]
      simp only [entWidth, offWidth, posWidth]
      omega
    have hml : (indexWrite i w.1 w.2).2.mmap.length = i.mmap.length := by
      rw [hi1]
      simp only [offWidth]
      rw [writeBytes_length, hinlen]
      rw [encU64_length, hinlen]
      omega
    have hpres : ∀ a n, a + n ≤ i.size →
        slice (indexWrite i w.1 w.2).2.mmap a n = slice i.mmap a n := by
      intro a n han
      rw [hi1]
      simp only [offWidth]
      rw [slice_writeBytes_before _ _ _ _ _ (by omega) (by rw [hinlen]; omega)]
      rw [slice_writeBytes_before _ _ _ _ _ (by omega) (by omega)]
    have hw1 : slice (indexWrite i w.1 w.2).2.mmap i.size 4 = encU32 w.1 := by
      rw [hi1]
      simp only [offWidth]
      rw [slice_writeBytes_before _ _ _ _ _ (by omega) (by rw [hinlen]; omega)]
      have := slice_writeBytes_self i.mmap (encU32 w.1) i.size
        (by rw [encU32_length]; omega)
      rw [encU32_length] at this
      exact this
    have hw2 : slice (indexWrite i w.1 w.2).2.mmap (i.size + 4) 8 = encU64 w.2 := by
      rw [hi1]
      simp only [offWidth]
      have := slice_writeBytes_self (writeBytes i.mmap i.size (encU32 w.1))
        (encU64 w.2) (i.size + 4) (by rw [encU64_length, hinlen]; omega)
      rw [encU64_length] at this
      exact this
    have hstep : idxApplyWrites i (w :: ws) = idxApplyWrites (indexWrite i w.1 w.2).2 ws := rfl
    have hrec := ih (indexWrite i w.1 w.2).2
      (by rw [hml]; omega)
      (by rw [hms, hml]; rw [hlc] at h2; omega)
    rw [hstep]
    refine ⟨?_, ?_, ?_, ?_⟩
    · rw [hrec.1, hms, hlc]; omega
    · rw [hrec.2.1, hml]
    · intro a n han
      rw [hrec.2.2.1 a n (by omega)]
      exact hpres a n han
    · intro k hk
      match k with
      | 0 =>
        constructor
        · have := hrec.2.2.1 i.size 4 (by omega)
          rw [show i.size + 12 * 0 = i.size from by omega, this]
          exact hw1
        · have := hrec.2.2.1 (i.size + 4) 8 (by omega)
          rw [show i.size + 12 * 0 + 4 = i.size + 4 from by omega, this]
          exact hw2
      | Nat.succ k' =>
        have hk' : k' < ws.length := by rw [hlc] at hk; omega
        have hge := hrec.2.2.2 k' hk'
        constructor
        · rw [show i.size + 12 * (k' + 1) = (indexWrite i w.1 w.2).2.size + 12 * k' from
            by rw [hms]; omega]
          exact hge.1
        · rw [show i.size + 12 * (k' + 1) + 4 =
              (indexWrite i w.1 w.2).2.size + 12 * k' + 4 from by rw [hms]; omega]
          exact hge.2

/-- C5 amended: index.Read returns end-of-file when the size is 0 or when
t·12 + 12 > size for t the requested slot truncated to u32 (t = slot mod
2^32); read(−1) is interpreted as slot (size/12)−1 provided the entry count
is at most 2^32; and for every slot k < 2^32 holding a written entry,
read(k) returns exactly the pair written at that slot. -/
theorem index_read_semantics :
    (∀ (i : Index) (slot : Int), 0 ≤ slot →
      (i.size = 0 ∨ i.size < ((slot % (2 ^ 32 : Int)).toNat) * 12 + 12) →
      indexRead i slot = .error .eof) ∧
    (∀ i : Index, 12 ≤ i.size → i.size % 12 = 0 → i.size / 12 ≤ 2 ^ 32 →
      indexRead i (-1) = indexRead i ((i.size / 12 - 1 : Nat) : Int)) ∧
    (∀ (c : Config) (ws : List (Nat × Nat)),
      c.maxIndexBytes + 12 < 2 ^ 64 →
      12 * ws.length ≤ c.maxIndexBytes →
      (∀ w ∈ ws, w.1 < 2 ^ 32 ∧ w.2 < 2 ^ 64) →
      ∀ k, ∀ hk : k < ws.length, k < 2 ^ 32 →
        indexRead (idxApplyWrites (newIndexM [] c) ws) ((k : Nat) : Int)
          = .ok (ws.get ⟨k, hk⟩)) := by
  refine ⟨?_, ?_, ?_⟩
  · intro i slot hs hcond
    by_cases hz : i.size = 0
    · simp [indexRead, hz]
    · have hlt : i.size < ((slot % (2 ^ 32 : Int)).toNat) * 12 + 12 := by
        rcases hcond with h | h
        · exact absurd h hz
        · exact h
      rw [indexRead_eq i slot ((slot % (2 ^ 32 : Int)).toNat) hz
        (by rw [if_neg (show ¬ slot = -1 by omega)])]
      rw [if_pos (by simp only [entWidth, offWidth, posWidth]; omega)]
  · intro i ha hb hc
    have h0 : ¬ i.size = 0 := by omega
    rw [indexRead_eq i (-1) (i.size / 12 - 1) h0
      (by
        rw [if_pos (show (-1 : Int) = -1 from rfl)]
        simp only [entWidth, offWidth, posWidth]
        omega)]
    rw [indexRead_eq i ((i.size / 12 - 1 : Nat) : Int) (i.size / 12 - 1) h0
      (by
        rw [if_neg (show ¬ ((i.size / 12 - 1 : Nat) : Int) = -1 by omega)]
        omega)]
  · intro c ws hM hfit hvals k hk hk32
    have hws1 : 1 ≤ ws.length := by omega
    have hsz0 : (newIndexM [] c).size = 0 := by simp [newIndexM]
    have hlen0 : (newIndexM [] c).mmap.length = c.maxIndexBytes := by
      simp [newIndexM]
    have hspec := idxApplyWrites_spec ws (newIndexM [] c)
      (by rw [hlen0]; omega) (by rw [hsz0, hlen0]; omega)
    have hsz : (idxApplyWrites (newIndexM [] c) ws).size = 12 * ws.length := by
      rw [hspec.1, hsz0]
      omega
    have h0 : ¬ (idxApplyWrites (newIndexM [] c) ws).size = 0 := by
      rw [hsz]; omega
    rw [indexRead_eq _ ((k : Nat) : Int) k h0
      (by rw [if_neg (show ¬ ((k : Nat) : Int) = -1 by omega)]; omega)]
    rw [if_neg (by simp only [entWidth, offWidth, posWidth]; rw [hsz]; omega)]
    have hget := hspec.2.2.2 k hk
    rw [hsz0] at hget
    have e1 : k * entWidth = 0 + 12 * k := by
      simp only [entWidth, offWidth, posWidth]; omega
    rw [e1]
    simp only [offWidth, posWidth]
    rw [hget.1, hget.2, decU32_encU32, decU64_encU64]
    have hv := hvals (ws.get ⟨k, hk⟩) (ws.get_mem k hk)
    rw [Nat.mod_eq_of_lt hv.1, Nat.mod_eq_of_lt hv.2]

/-- C5 counterexample: an index of logical size 12 holding the entry (5, 100)
at slot 0: the claim requires read(2^32) to return end-of-file because
2^32·12 + 12 > 12, but index.Read truncates the slot to u32 and returns the
slot-0 entry. -/
theorem index_read_semantics_cex :
    (12 : Nat) < 2 ^ 32 * 12 + 12 ∧
    indexRead ⟨encU32 5 ++ encU64 100 ++ List.replicate 12 0, 12, ⟨1024, 24, 0⟩⟩
      (2 ^ 32) = .ok (5, 100) := by
  constructor
  · decide
  · decide

/-- C5 witness: three entries written; slot 1 reads back (1, 13) and slot −1
reads back the most recently written entry (2, 26). -/
theorem index_read_semantics_witness :
    indexRead (idxApplyWrites (newIndexM [] ⟨1024, 36, 0⟩) [(0, 0), (1, 13), (2, 26)])
      ((1 : Nat) : Int) = .ok (1, 13) ∧
    indexRead (idxApplyWrites (newIndexM [] ⟨1024, 36, 0⟩) [(0, 0), (1, 13), (2, 26)])
      (-1) = .ok (2, 26) := by
  constructor
  · have h := index_read_semantics.2.2 ⟨1024, 36, 0⟩ [(0, 0), (1, 13), (2, 26)]
      (by decide) (by decide) (by decide) 1 (by decide) (by decide)
    rw [h]
    rfl
  · have ha := index_read_semantics.2.1
      (idxApplyWrites (newIndexM [] ⟨1024, 36, 0⟩) [(0, 0), (1, 13), (2, 26)])
      (by decide) (by decide) (by decide)
    have hb := index_read_semantics.2.2 ⟨1024, 36, 0⟩ [(0, 0), (1, 13), (2, 26)]
      (by decide) (by decide) (by decide) 2 (by decide) (by decide)
    rw [ha]
    have hc : ((idxApplyWrites (newIndexM [] ⟨1024, 36, 0⟩)
        [(0, 0), (1, 13), (2, 26)]).size / 12 - 1 : Nat) = (2 : Nat) := by decide
    rw [hc, hb]
    rfl

/- ===== Record and its wire codec (api/v1 Record message; serialization is
an external collaborator, opaque to the segment) ===== -/

/-- A log record: opaque payload bytes plus the uint64 offset stamped by the
segment (message Record { bytes value = 1; uint64 offset = 2; }). -/
structure Record where
  value : List Nat
  offset : Nat
deriving DecidableEq, Repr

/-- Protobuf base-128 varint encoding, fuel-bounded (each step divides the
value by 128, so fuel n + 1 always suffices). -/
def encVarintAux : Nat → Nat → List Nat
  | 0, n => [n % 128]
  | fuel + 1, n => if n < 128 then [n] else (n % 128 + 128) :: encVarintAux fuel (n / 128)

/-- Protobuf base-128 varint encoding of a nonnegative integer. -/
def encVarint (n : Nat) : List Nat :=
  encVarintAux (n + 1) n

/-- proto.Marshal of a Record: field 1 (value) as a length-delimited byte
string with tag 0x0A, then field 2 (offset) as a varint with tag 0x10;
proto3 omits empty and zero-valued fields. -/
def protoMarshal (r : Record) : List Nat :=
  (if r.value.length = 0 then []
   else 10 :: (encVarint r.value.length ++ r.value)) ++
  (if r.offset % 2 ^ 64 = 0 then []
   else 16 :: encVarint (r.offset % 2 ^ 64))

/-- Varint decoding: the value and the remaining bytes. -/
def decVarint : List Nat → Option (Nat × List Nat)
  | [] => none
  | b :: rest =>
    if b < 128 then some (b, rest)
    else
      match decVarint rest with
      | some (v, r) => some (b % 128 + v * 128, r)
      | none => none

/-- proto.Unmarshal of a Record, restricted to the two fields of the Record
message; the fuel bounds the number of fields parsed (each field consumes at
least one byte). -/
def protoUnmarshalLoop : Nat → List Nat → Record → Except Err Record
  | _, [], acc => .ok acc
  | 0, _ :: _, _ => .error .badProto
  | fuel + 1, b :: rest, acc =>
    if b = 10 then
      match decVarint rest with
      | some (n, r) =>
        if n ≤ r.length then
          protoUnmarshalLoop fuel (r.drop n) { acc with value := r.take n }
        else .error .badProto
      | none => .error .badProto
    else if b = 16 then
      match decVarint rest with
      | some (v, r) => protoUnmarshalLoop fuel r { acc with offset := v % 2 ^ 64 }
      | none => .error .badProto
    else .error .badProto

/-- proto.Unmarshal entry point. -/
def protoUnmarshal (l : List Nat) : Except Err Record :=
  protoUnmarshalLoop l.length l ⟨[], 0⟩

/- ===== Segment (src/internal/log/segment.go) ===== -/

/-- Segment state: its store, its index, the immutable base offset, the
mutable next offset, and the configuration snapshot (all offsets uint64). -/
structure Segment where
  store : Store
  index : Index
  baseOffset : Nat
  nextOffset : Nat
  config : Config
deriving DecidableEq, Repr

/-- newSegment: opens or creates the store and index files (whose byte
contents are the two list parameters), builds the store and the index, then
recovers nextOffset from index.Read(-1): baseOffset when the index is empty,
otherwise baseOffset + last relative offset + 1 in uint64 arithmetic. -/
def newSegmentM (storeFile idxFile : List Nat) (base : Nat) (c : Config) : Segment :=
  let st := newStoreM storeFile
  let idx := newIndexM idxFile c
  let next :=
    match indexRead idx (-1) with
    | .error _ => base
    | .ok (off, _) => (base + off + 1) % 2 ^ 64
  { store := st, index := idx, baseOffset := base, nextOffset := next, config := c }

/-- segment.Append: stamps the record's offset with nextOffset, marshals it,
appends the bytes to the store, writes (nextOffset − baseOffset truncated to
u32, position) to the index, and on success increments nextOffset (uint64)
and returns the stamped offset. On an index-write failure the store keeps
the already-appended frame and nextOffset is left unchanged. -/
def segmentAppend (s : Segment) (r : Record) : Except Err Nat × Segment :=
  let cur := s.nextOffset
  let p := protoMarshal { r with offset := cur }
  let res := storeAppend s.store p
  let iw := indexWrite s.index (usub64 cur s.baseOffset % 2 ^ 32) res.2.1
  match iw.1 with
  | .error e => (.error e, { s with store := res.2.2, index := iw.2 })
  | .ok _ =>
    (.ok cur,
     { s with store := res.2.2, index := iw.2, nextOffset := (cur + 1) % 2 ^ 64 })

/-- segment.Read: translates the absolute offset to the int64 index slot
off − baseOffset (uint64 subtraction reinterpreted as int64), reads the
position from the index, the frame bytes from the store, and unmarshals. -/
def segmentRead (s : Segment) (off : Nat) : Except Err Record :=
  match indexRead s.index (toInt64 (usub64 off s.baseOffset)) with
  | .error e => .error e
  | .ok (_, pos) =>
    match storeRead s.store pos with
    | .error e => .error e
    | .ok p => protoUnmarshal p

/- ===== segment.Append case analysis ===== -/

theorem segmentAppend_err_state (s : Segment) (r : Record) (e : Err)
    (he : (segmentAppend s r).1 = .error e) :
    (segmentAppend s r).2 =
      { s with
        store := (storeAppend s.store (protoMarshal { r with offset := s.nextOffset })).2.2,
        index := s.index } ∧ e = .eof := by
  by_cases hmx : indexIsMaxed s.index = true
  · have hw : indexWrite s.index (usub64 s.nextOffset s.baseOffset % 2 ^ 32)
        (storeAppend s.store (protoMarshal { r with offset := s.nextOffset })).2.1
        = (.error .eof, s.index) := by
      simp [indexWrite, hmx]
    constructor
    · simp only [segmentAppend, hw]
    · simp only [segmentAppend, hw] at he
      exact (Except.error.injEq _ _ ▸ he).symm
  · exfalso
    have hmx' : indexIsMaxed s.index = false := by
      revert hmx; cases indexIsMaxed s.index <;> simp
    have hw : (indexWrite s.index (usub64 s.nextOffset s.baseOffset % 2 ^ 32)
        (storeAppend s.store (protoMarshal { r with offset := s.nextOffset })).2.1).1
        = .ok () := by
      simp [indexWrite, hmx']
    simp only [segmentAppend, hw] at he
    exact Except.noConfusion he

theorem segmentAppend_ok_state (s : Segment) (r : Record) (m : Nat)
    (hm : (segmentAppend s r).1 = .ok m) :
    indexIsMaxed s.index = false ∧
    m = s.nextOffset ∧
    (segmentAppend s r).2 =
      { s with
        store := (storeAppend s.store (protoMarshal { r with offset := s.nextOffset })).2.2,
        index := (indexWrite s.index (usub64 s.nextOffset s.baseOffset % 2 ^ 32)
          (storeAppend s.store (protoMarshal { r with offset := s.nextOffset })).2.1).2,
        nextOffset := (s.nextOffset + 1) % 2 ^ 64 } := by
  by_cases hmx : indexIsMaxed s.index = true
  · exfalso
    have hw : indexWrite s.index (usub64 s.nextOffset s.baseOffset % 2 ^ 32)
        (storeAppend s.store (protoMarshal { r with offset := s.nextOffset })).2.1
        = (.error .eof, s.index) := by
      simp [indexWrite, hmx]
    simp only [segmentAppend, hw] at hm
    exact Except.noConfusion hm
  · have hmx' : indexIsMaxed s.index = false := by
      revert hmx; cases indexIsMaxed s.index <;> simp
    have hw : (indexWrite s.index (usub64 s.nextOffset s.baseOffset % 2 ^ 32)
        (storeAppend s.store (protoMarshal { r with offset := s.nextOffset })).2.1).1
        = .ok () := by
      simp [indexWrite, hmx']
    refine ⟨hmx', ?_, ?_⟩
    · simp only [segmentAppend, hw] at hm
      exact (Except.ok.injEq _ _ ▸ hm).symm
    · simp only [segmentAppend, hw]

/- ===== C6 ===== -/

/-- C6 amended: newSegment recovery of nextOffset: on an empty index file the
next offset is the base offset; on a well-formed nonempty index file it is
(base + last relative offset + 1) mod 2^64 — the last relative offset being
the u32 decoded from the final 12-byte entry — which equals
base + last relative offset + 1 whenever that sum does not overflow uint64. -/
theorem newSegment_next_offset (storeFile idxFile : List Nat) (base : Nat) (c : Config) :
    (idxFile.length = 0 → (newSegmentM storeFile idxFile base c).nextOffset = base) ∧
    (idxFile.length % 12 = 0 → 12 ≤ idxFile.length →
      idxFile.length ≤ c.maxIndexBytes → idxFile.length / 12 ≤ 2 ^ 32 →
      idxFile.length < 2 ^ 64 →
      (newSegmentM storeFile idxFile base c).nextOffset =
        (base + decU32 (slice idxFile (idxFile.length - 12) 4) + 1) % 2 ^ 64) ∧
    (idxFile.length % 12 = 0 → 12 ≤ idxFile.length →
      idxFile.length ≤ c.maxIndexBytes → idxFile.length / 12 ≤ 2 ^ 32 →
      idxFile.length < 2 ^ 64 →
      base + decU32 (slice idxFile (idxFile.length - 12) 4) + 1 < 2 ^ 64 →
      (newSegmentM storeFile idxFile base c).nextOffset =
        base + decU32 (slice idxFile (idxFile.length - 12) 4) + 1) := by
  have hempty : idxFile.length = 0 →
      (newSegmentM storeFile idxFile base c).nextOffset = base := by
    intro h
    have hrd : indexRead (newIndexM idxFile c) (-1) = .error .eof := by
      simp [indexRead, newIndexM, h]
    simp [newSegmentM, hrd]
  have hmodc : ∀ h1 : idxFile.length % 12 = 0, 12 ≤ idxFile.length →
      idxFile.length ≤ c.maxIndexBytes → idxFile.length / 12 ≤ 2 ^ 32 →
      idxFile.length < 2 ^ 64 →
      (newSegmentM storeFile idxFile base c).nextOffset =
        (base + decU32 (slice idxFile (idxFile.length - 12) 4) + 1) % 2 ^ 64 := by
    intro h1 h2 h3 h4 h5
    have hsz : (newIndexM idxFile c).size = idxFile.length := by
      simp only [newIndexM]
      exact Nat.mod_eq_of_lt h5
    have hmm_eq : (newIndexM idxFile c).mmap
        = (idxFile ++ List.replicate (c.maxIndexBytes - idxFile.length) 0).take
            c.maxIndexBytes := rfl
    have hs1 : slice (newIndexM idxFile c).mmap (idxFile.length - 12) 4
        = slice idxFile (idxFile.length - 12) 4 := by
      rw [hmm_eq, slice_take _ _ _ _ (by omega), slice_append_left _ _ _ _ (by omega)]
    have hs2 : slice (newIndexM idxFile c).mmap (idxFile.length - 12 + 4) 8
        = slice idxFile (idxFile.length - 12 + 4) 8 := by
      rw [hmm_eq, slice_take _ _ _ _ (by omega), slice_append_left _ _ _ _ (by omega)]
    have hrd : indexRead (newIndexM idxFile c) (-1)
        = .ok (decU32 (slice idxFile (idxFile.length - 12) 4),
               decU64 (slice idxFile (idxFile.length - 12 + 4) 8)) := by
      rw [indexRead_eq (newIndexM idxFile c) (-1) (idxFile.length / 12 - 1)
        (by rw [hsz]; omega)
        (by
          rw [if_pos (show (-1 : Int) = -1 from rfl), hsz]
          simp only [entWidth, offWidth, posWidth]
          omega)]
      rw [hsz]
      rw [if_neg (by simp only [entWidth, offWidth, posWidth]; omega)]
      simp only [entWidth, offWidth, posWidth]
      rw [show (idxFile.length / 12 - 1) * (4 + 8) = idxFile.length - 12 from by omega]
      rw [hs1, hs2]
    simp only [newSegmentM, hrd]
  refine ⟨hempty, hmodc, ?_⟩
  intro h1 h2 h3 h4 h5 h6
  rw [hmodc h1 h2 h3 h4 h5]
  exact Nat.mod_eq_of_lt h6

/-- C6 counterexample: a segment reopened at base offset 2^64 − 1 over an
index file holding the single entry (0, 0): the claim requires
nextOffset = base + 0 + 1 = 2^64, but the Go uint64 addition wraps and
newSegment sets nextOffset = 0. -/
theorem newSegment_next_offset_cex :
    (newSegmentM [] (encU32 0 ++ encU64 0) (2 ^ 64 - 1) ⟨1024, 24, 0⟩).nextOffset ≠
      (2 ^ 64 - 1) +
        decU32 (slice (encU32 0 ++ encU64 0) ((encU32 0 ++ encU64 0).length - 12) 4) + 1 ∧
    (newSegmentM [] (encU32 0 ++ encU64 0) (2 ^ 64 - 1) ⟨1024, 24, 0⟩).nextOffset = 0 := by
  constructor
  · decide
  · decide

/-- C6 witness: an index file holding the single entry (7, 0) recovers
nextOffset = 100 + 7 + 1 = 108; an empty index file recovers base 42. -/
theorem newSegment_next_offset_witness :
    (newSegmentM [] (encU32 7 ++ encU64 0) 100 ⟨1024, 24, 0⟩).nextOffset = 108 ∧
    (newSegmentM [] [] 42 ⟨1024, 24, 0⟩).nextOffset = 42 := by
  constructor
  · have h := (newSegment_next_offset [] (encU32 7 ++ encU64 0) 100 ⟨1024, 24, 0⟩).2.2
      (by decide) (by decide) (by decide) (by decide) (by decide) (by decide)
    rw [h]
    decide
  · exact (newSegment_next_offset [] [] 42 ⟨1024, 24, 0⟩).1 (by decide)

/- ===== C2 ===== -/

/-- Sequence of appends against one segment, collecting each result. -/
def segmentAppendMany (s : Segment) (rs : List Record) : List (Except Err Nat) × Segment :=
  match rs with
  | [] => ([], s)
  | r :: rest =>
    let one := segmentAppend s r
    let more := segmentAppendMany one.2 rest
    (one.1 :: more.1, more.2)

/-- C2 amended: a successful segment.Append returns the pre-append
nextOffset, appends the marshaling of the record stamped with that offset to
the store, and sets nextOffset to (nextOffset + 1) mod 2^64; hence a
sequence of successful appends whose initial nextOffset n0 satisfies
n0 + count ≤ 2^64 returns exactly the consecutive offsets n0, n0+1, …. -/
theorem segment_append_offsets :
    (∀ (s : Segment) (r : Record) (m : Nat),
      (segmentAppend s r).1 = .ok m →
      m = s.nextOffset ∧
      (segmentAppend s r).2.nextOffset = (s.nextOffset + 1) % 2 ^ 64 ∧
      (segmentAppend s r).2.store.data = s.store.data ++
        encU64 (protoMarshal { r with offset := s.nextOffset }).length ++
        protoMarshal { r with offset := s.nextOffset }) ∧
    (∀ (s : Segment) (rs : List Record),
      s.nextOffset + rs.length ≤ 2 ^ 64 →
      (∀ res ∈ (segmentAppendMany s rs).1, ∃ m, res = Except.ok m) →
      (segmentAppendMany s rs).1 =
        (List.range' s.nextOffset rs.length).map Except.ok) := by
  constructor
  · intro s r m hm
    have hok := segmentAppend_ok_state s r m hm
    refine ⟨hok.2.1, by rw [hok.2.2], ?_⟩
    rw [hok.2.2]
    rfl
  · intro s rs
    induction rs generalizing s with
    | nil => intro _ _; rfl
    | cons r rest ih =>
      intro hb hall
      have hcons : (segmentAppendMany s (r :: rest)).1 =
          (segmentAppend s r).1 :: (segmentAppendMany (segmentAppend s r).2 rest).1 := rfl
      obtain ⟨m, hm⟩ := hall (segmentAppend s r).1
        (by rw [hcons]; exact List.mem_cons_self _ _)
      have hok := segmentAppend_ok_state s r m hm
      have hnext : (segmentAppend s r).2.nextOffset = (s.nextOffset + 1) % 2 ^ 64 := by
        rw [hok.2.2]
      rcases rest with _ | ⟨r2, rest'⟩
      · rw [hcons, hm, hok.2.1]
        rfl
      · have hlen : (r :: r2 :: rest').length = rest'.length + 2 := rfl
        have hn1 : (s.nextOffset + 1) % 2 ^ 64 = s.nextOffset + 1 :=
          Nat.mod_eq_of_lt (by rw [hlen] at hb; omega)
        have htail := ih (segmentAppend s r).2
          (by
            rw [hnext, hn1]
            rw [hlen] at hb
            simp only [List.length_cons]
            omega)
          (by
            intro res hres
            exact hall res (by rw [hcons]; exact List.mem_cons_of_mem _ hres))
        rw [hcons, hm, hok.2.1, htail, hnext, hn1]
        simp [List.range']

/-- C2 counterexample: a segment created at base offset 2^64 − 1: two
successful appends return offsets 2^64 − 1 and then 0 (the uint64 counter
wraps), so the returned offsets are not monotonically increasing. -/
theorem segment_append_offsets_cex :
    (segmentAppendMany (newSegmentM [] [] (2 ^ 64 - 1) ⟨1024, 24, 0⟩)
        [⟨[], 0⟩, ⟨[], 0⟩]).1 = [Except.ok (2 ^ 64 - 1), Except.ok 0] ∧
    ¬ (2 ^ 64 - 1 : Nat) < 0 := by
  constructor
  · decide
  · decide

/-- C2 witness: three appends on a fresh segment at base 0 return offsets
0, 1, 2. -/
theorem segment_append_offsets_witness :
    (segmentAppendMany (newSegmentM [] [] 0 ⟨1024, 36, 0⟩)
        [⟨[1], 0⟩, ⟨[2], 0⟩, ⟨[3], 0⟩]).1 =
      [Except.ok 0, Except.ok 1, Except.ok 2] := by
  have h := segment_append_offsets.2 (newSegmentM [] [] 0 ⟨1024, 36, 0⟩)
    [⟨[1], 0⟩, ⟨[2], 0⟩, ⟨[3], 0⟩] (by decide)
    (by
      intro res hres
      rw [show (segmentAppendMany (newSegmentM [] [] 0 ⟨1024, 36, 0⟩)
          [⟨[1], 0⟩, ⟨[2], 0⟩, ⟨[3], 0⟩]).1 =
          [Except.ok 0, Except.ok 1, Except.ok 2] from by decide] at hres
      simp only [List.mem_cons, List.not_mem_nil, or_false] at hres
      rcases hres with h | h | h <;> exact ⟨_, h⟩)
  rw [h]
  decide

/- ===== C7 ===== -/

/-- C7: append failure atomicity for the offset counter: if segment.Append
fails, nextOffset is not advanced and the index is unchanged, so a
subsequent successful append returns the offset the failed one would have
returned. -/
theorem segment_append_failure_atomic (s : Segment) (r : Record) (e : Err)
    (he : (segmentAppend s r).1 = .error e) :
    (segmentAppend s r).2.nextOffset = s.nextOffset ∧
    (segmentAppend s r).2.index = s.index ∧
    (∀ (r2 : Record) (m : Nat),
      (segmentAppend (segmentAppend s r).2 r2).1 = .ok m → m = s.nextOffset) := by
  have hst := segmentAppend_err_state s r e he
  refine ⟨by rw [hst.1], by rw [hst.1], ?_⟩
  intro r2 m h2
  have hm := (segmentAppend_ok_state _ r2 m h2).2.1
  rw [hm, hst.1]

/-- C7 witness: a segment whose index has zero capacity: the append fails
with eof, nextOffset stays 5, and a subsequent append on a widened segment
is not needed — the failed-state fields are checked concretely. -/
theorem segment_append_failure_atomic_witness :
    (segmentAppend (newSegmentM [] [] 5 ⟨1024, 0, 0⟩) ⟨[1], 0⟩).2.nextOffset = 5 ∧
    (segmentAppend (newSegmentM [] [] 5 ⟨1024, 0, 0⟩) ⟨[1], 0⟩).2.index =
      (newSegmentM [] [] 5 ⟨1024, 0, 0⟩).index := by
  have h := segment_append_failure_atomic (newSegmentM [] [] 5 ⟨1024, 0, 0⟩)
    ⟨[1], 0⟩ .eof (by decide)
  exact ⟨h.1, h.2.1⟩

/- ===== C8 ===== -/

/-- C8 amended: for a well-formed segment (next = base + count, index size =
12·count), segment.Read on an out-of-range absolute offset fails with the
end-of-file error from the index read, provided the uint64-wrapped and
u32-truncated difference off − base does not alias a valid slot: when
next ≤ off and off − base < 2^32, and when off ≤ base − 2 with
base − off ≤ 2^32 − count. (Offsets that alias a valid slot, such as
base − 1 on a nonempty segment, instead read a stored record.) -/
theorem segment_read_out_of_range (s : Segment) (off cnt : Nat)
    (hb : s.baseOffset + cnt < 2 ^ 64)
    (hn : s.nextOffset = s.baseOffset + cnt)
    (hsz : s.index.size = 12 * cnt)
    (hc32 : cnt ≤ 2 ^ 32)
    (hoff : off < 2 ^ 64) :
    (s.nextOffset ≤ off → off - s.baseOffset < 2 ^ 32 →
      segmentRead s off = .error .eof) ∧
    (off < s.baseOffset → 2 ≤ s.baseOffset - off →
      s.baseOffset - off ≤ 2 ^ 32 - cnt →
      segmentRead s off = .error .eof) := by
  by_cases hz : s.index.size = 0
  · have hrd : ∀ t : Int, indexRead s.index t = .error .eof := by
      intro t
      simp [indexRead, hz]
    refine ⟨fun _ _ => ?_, fun _ _ _ => ?_⟩ <;> simp [segmentRead, hrd]
  · constructor
    · intro h1 h2
      have hbase : s.baseOffset ≤ off := by omega
      have hd : usub64 off s.baseOffset = off - s.baseOffset := by
        unfold usub64
        omega
      have hti : toInt64 (usub64 off s.baseOffset) = ((off - s.baseOffset : Nat) : Int) := by
        rw [hd]
        unfold toInt64
        rw [if_pos (by omega)]
        rw [Nat.mod_eq_of_lt (by omega)]
      have hrd : indexRead s.index ((off - s.baseOffset : Nat) : Int) = .error .eof := by
        rw [indexRead_eq s.index _ (off - s.baseOffset) hz
          (by rw [if_neg (by omega)]; omega)]
        rw [if_pos (by simp only [entWidth, offWidth, posWidth]; omega)]
      simp [segmentRead, hti, hrd]
    · intro h1 h2 h3
      have hcnt1 : 1 ≤ cnt := by omega
      have hd : usub64 off s.baseOffset = 2 ^ 64 - (s.baseOffset - off) := by
        unfold usub64
        omega
      have hti : toInt64 (usub64 off s.baseOffset)
          = -(((s.baseOffset - off : Nat)) : Int) := by
        rw [hd]
        unfold toInt64
        rw [if_neg (by omega)]
        omega
      have hout : ((-(((s.baseOffset - off : Nat)) : Int)) % (2 ^ 32 : Int)).toNat
          = (2 ^ 32 - (s.baseOffset - off)) % 2 ^ 32 := by
        omega
      have hrd : indexRead s.index (-(((s.baseOffset - off : Nat)) : Int))
          = .error .eof := by
        rw [indexRead_eq s.index _ ((2 ^ 32 - (s.baseOffset - off)) % 2 ^ 32) hz
          (by rw [if_neg (by omega)]; exact hout)]
        rw [if_pos (by simp only [entWidth, offWidth, posWidth]; omega)]
      simp [segmentRead, hti, hrd]

set_option maxRecDepth 4000 in
/-- C8 counterexample: a segment at base offset 1 holding one record with
payload [120]; reading absolute offset 0 (below the base offset) does not
fail: the uint64 wrap of 0 − 1 reinterpreted as int64 is −1, which the index
treats as "last entry", so the read returns the stored record. -/
theorem segment_read_out_of_range_cex :
    (segmentAppend (newSegmentM [] [] 1 ⟨1024, 24, 0⟩) ⟨[120], 0⟩).2.baseOffset = 1 ∧
    segmentRead (segmentAppend (newSegmentM [] [] 1 ⟨1024, 24, 0⟩) ⟨[120], 0⟩).2 0
      = .ok ⟨[120], 1⟩ := by
  constructor
  · decide
  · decide

/-- C8 witness: reading offset 2 (= nextOffset) of a one-record segment at
base 1 fails with eof; reading offset 3 of an empty segment at base 5 fails
with eof. -/
theorem segment_read_out_of_range_witness :
    segmentRead (segmentAppend (newSegmentM [] [] 1 ⟨1024, 24, 0⟩) ⟨[120], 0⟩).2 2
      = .error .eof ∧
    segmentRead (newSegmentM [] [] 5 ⟨1024, 24, 0⟩) 3 = .error .eof := by
  constructor
  · exact (segment_read_out_of_range _ 2 1 (by decide) (by decide) (by decide)
      (by decide) (by decide)).1 (by decide) (by decide)
  · exact (segment_read_out_of_range _ 3 0 (by decide) (by decide) (by decide)
      (by decide) (by decide)).2 (by decide) (by decide) (by decide)

/- ===== C3: frame counting and segment reachability ===== -/

theorem encVarintAux_length : ∀ (k fuel n : Nat), n < fuel → n < 128 ^ (k + 1) →
    (encVarintAux fuel n).length ≤ k + 1 := by
  intro k
  induction k with
  | zero =>
    intro fuel n hf h
    cases fuel with
    | zero => omega
    | succ f =>
      have h128 : n < 128 := by
        have : (128 : Nat) ^ 1 = 128 := by norm_num
        rw [this] at h
        exact h
      simp [encVarintAux, h128]
  | succ k ih =>
    intro fuel n hf h
    cases fuel with
    | zero => omega
    | succ f =>
      by_cases h128 : n < 128
      · simp [encVarintAux, h128]
      · have hlt : n / 128 < f := by omega
        have h2 : n / 128 < 128 ^ (k + 1) := by
          have hmul : n < 128 ^ (k + 1) * 128 := by
            rw [← pow_succ]
            exact h
          exact Nat.div_lt_of_lt_mul (by omega)
        have := ih f (n / 128) hlt h2
        simp only [encVarintAux, if_neg h128, List.length_cons]
        omega

theorem encVarint_length (n k : Nat) (h : n < 128 ^ (k + 1)) :
    (encVarint n).length ≤ k + 1 :=
  encVarintAux_length k (n + 1) n (by omega) h

theorem protoMarshal_length_lt (r : Record) (hv : r.value.length < 2 ^ 63) :
    (protoMarshal r).length < 2 ^ 64 := by
  have h1 : (encVarint r.value.length).length ≤ 9 :=
    encVarint_length _ 8 (by norm_num at hv ⊢; omega)
  have h2 : (encVarint (r.offset % 2 ^ 64)).length ≤ 10 :=
    encVarint_length _ 9 (by
      have := Nat.mod_lt r.offset (show 0 < 2 ^ 64 by norm_num)
      norm_num at this ⊢
      omega)
  simp only [protoMarshal, List.length_append]
  by_cases hv0 : r.value.length = 0 <;> by_cases ho0 : r.offset % 2 ^ 64 = 0 <;>
    simp only [hv0, ho0, if_pos, if_neg, ite_true, ite_false, List.length_cons,
      List.length_append, List.length_nil] <;>
    omega

/-- Frame counter over a store byte sequence: parses 8-byte length prefixes
from the front; fuel-bounded (each frame consumes at least 8 bytes). -/
def countFramesAux : Nat → List Nat → Option Nat
  | 0, l => if l = [] then some 0 else none
  | fuel + 1, l =>
    if l = [] then some 0
    else if l.length < 8 then none
    else
      let L := decU64 (l.take 8)
      if l.length < 8 + L then none
      else (countFramesAux fuel (l.drop (8 + L))).map (· + 1)

/-- Number of length-prefixed frames in a store byte sequence, none when the
bytes do not parse as a whole number of frames. -/
def countFrames (l : List Nat) : Option Nat :=
  countFramesAux l.length l

/-- Store bytes of a sequence of frames with the given payloads. -/
def flatFrames : List (List Nat) → List Nat
  | [] => []
  | p :: ps => encU64 p.length ++ p ++ flatFrames ps

theorem flatFrames_append_one (ps : List (List Nat)) (p : List Nat) :
    flatFrames (ps ++ [p]) = flatFrames ps ++ (encU64 p.length ++ p) := by
  induction ps with
  | nil => simp [flatFrames]
  | cons q ps ih => simp [flatFrames, ih, List.append_assoc]

theorem countFramesAux_flat : ∀ (ps : List (List Nat)) (fuel : Nat),
    (∀ p ∈ ps, p.length < 2 ^ 64) →
    (flatFrames ps).length ≤ fuel →
    countFramesAux fuel (flatFrames ps) = some ps.length := by
  intro ps
  induction ps with
  | nil =>
    intro fuel _ _
    cases fuel <;> simp [countFramesAux, flatFrames]
  | cons p ps ih =>
    intro fuel hb hlen
    have hf : flatFrames (p :: ps) = encU64 p.length ++ p ++ flatFrames ps := rfl
    have hlens : (flatFrames (p :: ps)).length
        = 8 + p.length + (flatFrames ps).length := by
      rw [hf]
      simp only [List.length_append, encU64_length]
    cases fuel with
    | zero => exact absurd hlen (by rw [hlens]; omega)
    | succ f =>
      have hne : flatFrames (p :: ps) ≠ [] := by
        intro hcon
        rw [hcon] at hlens
        simp only [List.length_nil] at hlens
        omega
      simp only [countFramesAux]
      rw [if_neg hne, if_neg (by rw [hlens]; omega)]
      have htake : (flatFrames (p :: ps)).take 8 = encU64 p.length := by
        rw [hf, List.append_assoc]
        rw [List.take_append_of_le_length (by rw [encU64_length])]
        rw [show (8 : Nat) = (encU64 p.length).length from (encU64_length _).symm,
          List.take_length]
      rw [htake, decU64_encU64, Nat.mod_eq_of_lt (hb p (List.mem_cons_self _ _))]
      rw [if_neg (by rw [hlens]; omega)]
      have hdrop : (flatFrames (p :: ps)).drop (8 + p.length) = flatFrames ps := by
        rw [hf]
        have hl : (encU64 p.length ++ p).length = 8 + p.length := by
          simp [encU64_length]
        exact List.drop_left' hl
      rw [hdrop, ih f (fun q hq => hb q (List.mem_cons_of_mem _ hq))
        (by rw [hlens] at hlen; omega)]
      rfl

theorem countFrames_flat (ps : List (List Nat)) (h : ∀ p ∈ ps, p.length < 2 ^ 64) :
    countFrames (flatFrames ps) = some ps.length :=
  countFramesAux_flat ps _ h (le_refl _)

theorem indexWrite_ok_shape (i : Index) (off pos : Nat)
    (hnm : indexIsMaxed i = false) (hw : i.size + 12 < 2 ^ 64) :
    (indexWrite i off pos).2.size = i.size + 12 ∧
    (indexWrite i off pos).2.mmap.length = i.mmap.length := by
  have hroom : i.size + 12 ≤ i.mmap.length := by
    have hx := hnm
    simp only [indexIsMaxed, entWidth, offWidth, posWidth,
      decide_eq_false_iff_not, not_lt] at hx
    omega
  have hin : (writeBytes i.mmap i.size (encU32 off)).length = i.mmap.length :=
    writeBytes_length _ _ _ (by rw [encU32_length]; omega)
  have hout : (writeBytes (writeBytes i.mmap i.size (encU32 off))
      (i.size + 4) (encU64 pos)).length
      = (writeBytes i.mmap i.size (encU32 off)).length :=
    writeBytes_length _ _ _ (by rw [encU64_length, hin]; omega)
  constructor
  · simp only [indexWrite, hnm, Bool.false_eq_true, if_false, entWidth,
      offWidth, posWidth]
    omega
  · simp only [indexWrite, hnm, Bool.false_eq_true, if_false, offWidth]
    rw [hout, hin]

/-- Segment states reachable in the model: a segment freshly created by
newSegment on empty files, followed by Append calls; the second component
counts the appends whose index write failed (each leaves a dangling store
frame). Payload lengths are below 2^63 (Go slice length bound). -/
inductive ReachSeg : Segment → Nat → Prop where
  | fresh (base : Nat) (c : Config) (hb : base < 2 ^ 64)
      (hc : c.maxIndexBytes + 12 < 2 ^ 64) :
      ReachSeg (newSegmentM [] [] base c) 0
  | stepOk (s : Segment) (n : Nat) (r : Record) (m : Nat)
      (hv : r.value.length < 2 ^ 63) (h : ReachSeg s n)
      (hm : (segmentAppend s r).1 = .ok m) :
      ReachSeg (segmentAppend s r).2 n
  | stepFail (s : Segment) (n : Nat) (r : Record) (e : Err)
      (hv : r.value.length < 2 ^ 63) (h : ReachSeg s n)
      (he : (segmentAppend s r).1 = .error e) :
      ReachSeg (segmentAppend s r).2 (n + 1)

/-- Well-formedness carried by every reachable segment state. -/
def SegWF (s : Segment) (n : Nat) : Prop :=
  s.baseOffset < 2 ^ 64 ∧
  s.index.mmap.length + 12 < 2 ^ 64 ∧
  s.index.size % 12 = 0 ∧
  s.index.size ≤ s.index.mmap.length ∧
  s.nextOffset = (s.baseOffset + s.index.size / 12) % 2 ^ 64 ∧
  ∃ ps : List (List Nat),
    s.store.data = flatFrames ps ∧
    (∀ p ∈ ps, p.length < 2 ^ 64) ∧
    ps.length = s.index.size / 12 + n

theorem ReachSeg_wf {s : Segment} {n : Nat} (h : ReachSeg s n) : SegWF s n := by
  induction h with
  | fresh base c hb hc =>
    have hlen : (newSegmentM [] [] base c).index.mmap.length = c.maxIndexBytes := by
      simp [newSegmentM, newIndexM]
    have hsz : (newSegmentM [] [] base c).index.size = 0 := by
      simp [newSegmentM, newIndexM]
    have hnext : (newSegmentM [] [] base c).nextOffset = base := by
      simp [newSegmentM, newIndexM, indexRead]
    have hbase : (newSegmentM [] [] base c).baseOffset = base := rfl
    refine ⟨hb, by rw [hlen]; exact hc, by rw [hsz], by rw [hsz]; omega, ?_,
      [], rfl, by simp, by rw [hsz]; rfl⟩
    rw [hnext, hsz, hbase]
    have h012 : (0 : Nat) / 12 = 0 := rfl
    rw [h012, Nat.add_zero, Nat.mod_eq_of_lt hb]
  | stepOk s n r m hv hrs hm ih =>
    obtain ⟨hb, hlen64, hmod, hle, hnext, ps, hdata, hbound, hcount⟩ := ih
    have hok := segmentAppend_ok_state s r m hm
    have hroom : s.index.size + 12 ≤ s.index.mmap.length := by
      have hx := hok.1
      simp only [indexIsMaxed, entWidth, offWidth, posWidth,
        decide_eq_false_iff_not, not_lt] at hx
      omega
    have hshape := indexWrite_ok_shape s.index
      (usub64 s.nextOffset s.baseOffset % 2 ^ 32)
      (storeAppend s.store (protoMarshal { r with offset := s.nextOffset })).2.1
      hok.1 (by omega)
    have hsize' : (segmentAppend s r).2.index.size = s.index.size + 12 := by
      rw [hok.2.2]
      exact hshape.1
    have hlen' : (segmentAppend s r).2.index.mmap.length = s.index.mmap.length := by
      rw [hok.2.2]
      exact hshape.2
    have hnext' : (segmentAppend s r).2.nextOffset = (s.nextOffset + 1) % 2 ^ 64 := by
      rw [hok.2.2]
    have hbase' : (segmentAppend s r).2.baseOffset = s.baseOffset := by
      rw [hok.2.2]
    have hdata' : (segmentAppend s r).2.store.data = s.store.data ++
        encU64 (protoMarshal { r with offset := s.nextOffset }).length ++
        protoMarshal { r with offset := s.nextOffset } := by
      rw [hok.2.2]
      rfl
    have hplen : (protoMarshal { r with offset := s.nextOffset }).length < 2 ^ 64 :=
      protoMarshal_length_lt _ hv
    refine ⟨by rw [hbase']; exact hb, by rw [hlen']; exact hlen64,
      by rw [hsize']; omega, by rw [hsize', hlen']; omega, ?_,
      ps ++ [protoMarshal { r with offset := s.nextOffset }], ?_, ?_, ?_⟩
    · rw [hnext', hbase', hsize', hnext]
      omega
    · rw [hdata', hdata, flatFrames_append_one, List.append_assoc]
    · intro q hq
      rcases List.mem_append.1 hq with h1 | h1
      · exact hbound q h1
      · rw [List.mem_singleton.1 h1]
        exact hplen
    · rw [List.length_append, hsize', hcount]
      simp only [List.length_singleton]
      omega
  | stepFail s n r e hv hrs he ih =>
    obtain ⟨hb, hlen64, hmod, hle, hnext, ps, hdata, hbound, hcount⟩ := ih
    have hst := segmentAppend_err_state s r e he
    have hsize' : (segmentAppend s r).2.index.size = s.index.size := by
      rw [hst.1]
    have hlen' : (segmentAppend s r).2.index.mmap.length = s.index.mmap.length := by
      rw [hst.1]
    have hnext' : (segmentAppend s r).2.nextOffset = s.nextOffset := by
      rw [hst.1]
    have hbase' : (segmentAppend s r).2.baseOffset = s.baseOffset := by
      rw [hst.1]
    have hdata' : (segmentAppend s r).2.store.data = s.store.data ++
        encU64 (protoMarshal { r with offset := s.nextOffset }).length ++
        protoMarshal { r with offset := s.nextOffset } := by
      rw [hst.1]
      rfl
    have hplen : (protoMarshal { r with offset := s.nextOffset }).length < 2 ^ 64 :=
      protoMarshal_length_lt _ hv
    refine ⟨by rw [hbase']; exact hb, by rw [hlen']; exact hlen64,
      by rw [hsize']; exact hmod, by rw [hsize', hlen']; exact hle, ?_,
      ps ++ [protoMarshal { r with offset := s.nextOffset }], ?_, ?_, ?_⟩
    · rw [hnext', hbase', hsize']
      exact hnext
    · rw [hdata', hdata, flatFrames_append_one, List.append_assoc]
    · intro q hq
      rcases List.mem_append.1 hq with h1 | h1
      · exact hbound q h1
      · rw [List.mem_singleton.1 h1]
        exact hplen
    · rw [List.length_append, hsize', hcount]
      simp only [List.length_singleton]
      omega

/-- C3 amended: in every reachable segment state (newSegment on empty files
followed by appends, n of which failed at the index write), the index size
is a multiple of 12, next_offset = (base_offset + entry count) mod 2^64, and
the store holds entry count + n frames; when base_offset + entry count does
not overflow uint64, base_offset ≤ next_offset and next_offset − base_offset
equals the entry count, and when no append failed the frame count equals the
entry count. -/
theorem segment_count_invariant (s : Segment) (n : Nat) (h : ReachSeg s n) :
    s.index.size % 12 = 0 ∧
    s.nextOffset = (s.baseOffset + s.index.size / 12) % 2 ^ 64 ∧
    countFrames s.store.data = some (s.index.size / 12 + n) ∧
    (s.baseOffset + s.index.size / 12 < 2 ^ 64 →
      s.baseOffset ≤ s.nextOffset ∧
      s.nextOffset - s.baseOffset = s.index.size / 12) ∧
    (n = 0 → countFrames s.store.data = some (s.index.size / 12)) := by
  obtain ⟨hb, hlen64, hmod, hle, hnext, ps, hdata, hbound, hcount⟩ := ReachSeg_wf h
  refine ⟨hmod, hnext, ?_, ?_, ?_⟩
  · rw [hdata, countFrames_flat ps hbound, hcount]
  · intro hlt
    rw [hnext, Nat.mod_eq_of_lt hlt]
    omega
  · intro hn0
    rw [hdata, countFrames_flat ps hbound, hcount, hn0]
    simp

set_option maxRecDepth 4000 in
/-- C3 counterexample: two violations of the claim as stated. With
MaxIndexBytes = 12 the first append succeeds and the second fails at the
index write, leaving two store frames against one index entry, so the frame
count differs from next_offset − base_offset. With base offset 2^64 − 1 a
single successful append wraps next_offset to 0, violating
base_offset ≤ next_offset. -/
theorem segment_count_invariant_cex :
    (countFrames (segmentAppend (segmentAppend (newSegmentM [] [] 0 ⟨1024, 12, 0⟩)
        ⟨[7], 0⟩).2 ⟨[8], 0⟩).2.store.data = some 2 ∧
     (segmentAppend (segmentAppend (newSegmentM [] [] 0 ⟨1024, 12, 0⟩)
        ⟨[7], 0⟩).2 ⟨[8], 0⟩).2.index.size / 12 = 1) ∧
    ((segmentAppend (newSegmentM [] [] (2 ^ 64 - 1) ⟨1024, 24, 0⟩) ⟨[], 0⟩).1
        = .ok (2 ^ 64 - 1) ∧
     (segmentAppend (newSegmentM [] [] (2 ^ 64 - 1) ⟨1024, 24, 0⟩) ⟨[], 0⟩).2.nextOffset <
       (segmentAppend (newSegmentM [] [] (2 ^ 64 - 1) ⟨1024, 24, 0⟩) ⟨[], 0⟩).2.baseOffset) := by
  refine ⟨⟨?_, ?_⟩, ?_, ?_⟩ <;> decide

set_option maxRecDepth 4000 in
/-- C3 witness: a fresh segment at base 0 after two successful appends:
base_offset ≤ next_offset and next_offset − base_offset equals the number of
index entries. -/
theorem segment_count_invariant_witness :
    (segmentAppend (segmentAppend (newSegmentM [] [] 0 ⟨1024, 24, 0⟩) ⟨[9], 0⟩).2
        ⟨[8], 0⟩).2.baseOffset ≤
      (segmentAppend (segmentAppend (newSegmentM [] [] 0 ⟨1024, 24, 0⟩) ⟨[9], 0⟩).2
        ⟨[8], 0⟩).2.nextOffset ∧
    (segmentAppend (segmentAppend (newSegmentM [] [] 0 ⟨1024, 24, 0⟩) ⟨[9], 0⟩).2
        ⟨[8], 0⟩).2.nextOffset -
      (segmentAppend (segmentAppend (newSegmentM [] [] 0 ⟨1024, 24, 0⟩) ⟨[9], 0⟩).2
        ⟨[8], 0⟩).2.baseOffset =
      (segmentAppend (segmentAppend (newSegmentM [] [] 0 ⟨1024, 24, 0⟩) ⟨[9], 0⟩).2
        ⟨[8], 0⟩).2.index.size / 12 := by
  have h0 : ReachSeg (newSegmentM [] [] 0 ⟨1024, 24, 0⟩) 0 :=
    ReachSeg.fresh 0 ⟨1024, 24, 0⟩ (by decide) (by decide)
  have h1 : ReachSeg (segmentAppend (newSegmentM [] [] 0 ⟨1024, 24, 0⟩) ⟨[9], 0⟩).2 0 :=
    ReachSeg.stepOk _ 0 ⟨[9], 0⟩ 0 (by decide) h0 (by decide)
  have h2 : ReachSeg (segmentAppend (segmentAppend (newSegmentM [] [] 0 ⟨1024, 24, 0⟩)
      ⟨[9], 0⟩).2 ⟨[8], 0⟩).2 0 :=
    ReachSeg.stepOk _ 0 ⟨[8], 0⟩ 1 (by decide) h1 (by decide)
  exact (segment_count_invariant _ 0 h2).2.2.2.1 (by decide)

end GoLogDB
